import Mathlib

/-
Verification of the mini-aes repository (src/mini_aes.py, src/utils.py).

Modelling conventions (shallow embedding):
* A Python binary string such as "011" is modelled as a `List Bool`
  (`true` = '1', `false` = '0', most significant bit first).
* A Python text string is modelled as the list of code points of its
  characters (`List Nat`); `ord`/`chr` are the identity in this view.
* A Python hexadecimal string is modelled as the list of values of its
  digits (`List Nat`, each < 16); `hex()` always renders lowercase.
* A Python key string is modelled as `List Char`.
* `int(s, base)` raises `ValueError` on the empty string; the two call
  sites where the argument can be empty (`binary_to_hex`,
  `hex_to_binary`) are therefore modelled with `Option`, `none`
  standing for the raised error.  All other call sites receive
  provably non-empty digit strings and use the total fold directly.
-/

/-- `int(s, 2)` on a (non-empty in every actual use) binary string:
fold the bits most-significant first. -/
def binToNat (bs : List Bool) : Nat :=
  bs.foldl (fun acc b => 2 * acc + b.toNat) 0

/-- `int(s, 16)` on a hex-digit string (digits already mapped to values). -/
def hexToNat (hs : List Nat) : Nat :=
  hs.foldl (fun acc d => 16 * acc + d) 0

/-- The binary digits of `n`, exactly `w` of them, most significant first
(the low `w` bits of `n`). -/
def toBitsFixed : Nat → Nat → List Bool
  | 0, _ => []
  | w + 1, n => toBitsFixed w (n / 2) ++ [n % 2 == 1]

/-- The base-16 digits of `n`, exactly `w` of them, most significant first. -/
def toHexFixed : Nat → Nat → List Nat
  | 0, _ => []
  | w + 1, n => toHexFixed w (n / 16) ++ [n % 16]

/-- Number of binary digits of `n` computed with explicit fuel (structural
recursion so that the kernel can evaluate it); `fuel ≥ the bit length`
in every use below. -/
def bitLenAux : Nat → Nat → Nat
  | 0, _ => 0
  | fuel + 1, n => if n = 0 then 0 else bitLenAux fuel (n / 2) + 1

/-- Number of binary digits Python's `format(n, 'b')` prints: at least one
digit (`format(0, 'b') = "0"`). -/
def pyBitLen (n : Nat) : Nat := max 1 (bitLenAux n n)

/-- `format(n, '0{w}b')`: binary, left-padded with zeros to width `w`,
but never fewer digits than the binary representation of `n` needs. -/
def formatBin (w n : Nat) : List Bool := toBitsFixed (max w (pyBitLen n)) n

/-- Number of hex digits of `n` with explicit fuel. -/
def hexLenAux : Nat → Nat → Nat
  | 0, _ => 0
  | fuel + 1, n => if n = 0 then 0 else hexLenAux fuel (n / 16) + 1

/-- Number of hex digits `hex(n)[2:]` prints (at least one). -/
def pyHexLen (n : Nat) : Nat := max 1 (hexLenAux n n)

/-- `hex(n)[2:]`: the hex digits of `n`, no leading zeros except for
`hex(0) = "0"`.  (`hex` renders lowercase; digits are modelled as values.) -/
def natToHex (n : Nat) : List Nat := toHexFixed (pyHexLen n) n

/-- `s.zfill(k)` on a digit string: left-pad with zero digits to length `k`. -/
def zfillZeros (k : Nat) (s : List Nat) : List Nat :=
  List.replicate (k - s.length) 0 ++ s

/-! ## src/utils.py -/

/-- `text_to_binary(text)`: each character becomes (at least) 8 bits.
`format(ord(ch), '08b')` yields more than 8 bits when `ord(ch) ≥ 256`. -/
def text_to_binary (text : List Nat) : List Bool :=
  (text.map (fun ch => formatBin 8 ch)).flatten

/-- `binary_to_text(binary)`: split into 8-bit chunks (the last chunk may be
shorter) and map each chunk through `chr(int(chunk, 2))`. -/
def binary_to_text : List Bool → List Nat
  | [] => []
  | b0 :: b1 :: b2 :: b3 :: b4 :: b5 :: b6 :: b7 :: rest =>
      binToNat [b0, b1, b2, b3, b4, b5, b6, b7] :: binary_to_text rest
  | short => [binToNat short]

/-- `hex_to_binary(hex_string)`: `format(int(hex_string, 16), '0{4·len}b')`.
`int` raises `ValueError` on the empty string or a non-hex character. -/
def hex_to_binary (hs : List Nat) : Option (List Bool) :=
  if hs.isEmpty || !(hs.all (fun d => d < 16)) then none
  else some (formatBin (hs.length * 4) (hexToNat hs))

/-- `binary_to_hex(binary)`: `hex(int(binary, 2))[2:].zfill(len(binary) // 4)`.
`int` raises `ValueError` on the empty string. -/
def binary_to_hex (bs : List Bool) : Option (List Nat) :=
  if bs.isEmpty then none
  else some (zfillZeros (bs.length / 4) (natToHex (binToNat bs)))

/-- `pad_block(block, target_length)`: right-pad with '0' to the target
length (`str.ljust`). -/
def pad_block (block : List Bool) (target_length : Nat) : List Bool :=
  block ++ List.replicate (target_length - block.length) false

/-- `binary_to_blocks(binary, block_size=12)`: split into 12-bit blocks,
zero-padding the last block.  The Python `for i in range(0, len, 12)` loop
is rendered as recursion consuming 12 bits at a time; a full chunk is
`pad_block`-ed exactly as in the source (a no-op there). -/
def binary_to_blocks : List Bool → List (List Bool)
  | [] => []
  | b0 :: b1 :: b2 :: b3 :: b4 :: b5 :: b6 :: b7 :: b8 :: b9 :: b10 :: b11 :: rest =>
      pad_block [b0, b1, b2, b3, b4, b5, b6, b7, b8, b9, b10, b11] 12
        :: binary_to_blocks rest
  | short => [pad_block short 12]

/-- A 2×2 state matrix of 3-bit cells (`np.array(...).reshape(2, 2)` of
binary strings), row major: `[[a, b], [c, d]]`. -/
structure M where
  a : List Bool
  b : List Bool
  c : List Bool
  d : List Bool
deriving DecidableEq, Repr

/-- `block_to_matrix(block)`: the four 3-character slices
`block[0:3], block[3:6], block[6:9], block[9:12]`, row major. -/
def block_to_matrix (block : List Bool) : M :=
  ⟨block.take 3, (block.drop 3).take 3, (block.drop 6).take 3, (block.drop 9).take 3⟩

/-- `matrix_to_block(matrix)`: row-major concatenation of the four cells. -/
def matrix_to_block (m : M) : List Bool :=
  m.a ++ m.b ++ m.c ++ m.d

/-- `text_to_matrices(plaintext)`. -/
def text_to_matrices (plaintext : List Nat) : List M :=
  (binary_to_blocks (text_to_binary plaintext)).map block_to_matrix

/-- `matrices_to_hex(matrices)` (raises, i.e. `none`, only via
`binary_to_hex` on the empty bit string). -/
def matrices_to_hex (matrices : List M) : Option (List Nat) :=
  binary_to_hex (matrices.map matrix_to_block).flatten

/-- `hex_to_matrices(hex_string)`. -/
def hex_to_matrices (hex_string : List Nat) : Option (List M) :=
  (hex_to_binary hex_string).map
    (fun bs => (binary_to_blocks bs).map block_to_matrix)

/-- `matrices_to_text(matrices)`. -/
def matrices_to_text (matrices : List M) : List Nat :=
  binary_to_text (matrices.map matrix_to_block).flatten

/-! ## src/mini_aes.py -/

/-- The forward S-Box dictionary, as the association list of its items
(all eight keys are distinct, so dict and association-list lookup agree). -/
def S_BOX : List (List Bool × List Bool) :=
  [ ([false, false, false], [false, false, false]),
    ([false, false, true ], [false, false, true ]),
    ([false, true , false], [true , false, true ]),
    ([false, true , true ], [true , true , false]),
    ([true , false, false], [true , true , true ]),
    ([true , false, true ], [false, true , false]),
    ([true , true , false], [false, true , true ]),
    ([true , true , true ], [true , false, false]) ]

/-- `INVERSE_S_BOX = {v: k for k, v in S_BOX.items()}`: the programmatic
inversion of the forward table. -/
def INVERSE_S_BOX : List (List Bool × List Bool) :=
  S_BOX.map (fun p => (p.2, p.1))

/-- `box[cell]`: dictionary lookup.  A missing key raises `KeyError` in
Python; that case is unreachable (every cell reaching a lookup is one of
the eight 3-bit strings) and is given the junk value `[]` here. -/
def boxLookup (box : List (List Bool × List Bool)) (cell : List Bool) : List Bool :=
  (List.lookup cell box).getD []

/-- `gf_add(a, b)`: `format(int(a, 2) ^ int(b, 2), '03b')`. -/
def gf_add (a b : List Bool) : List Bool :=
  formatBin 3 (binToNat a ^^^ binToNat b)

/-- `gf_multiply_by_2(value)`: `shifted = value[1:] + '0'`, and if
`value[0] == '1'` then `format(int(shifted, 2) ^ 0b011, '03b')`.
(`value[0]` on the empty string would raise `IndexError`; `headI`'s
default is never reached, every argument being a 3-bit cell.) -/
def gf_multiply_by_2 (value : List Bool) : List Bool :=
  let shifted := value.drop 1 ++ [false]
  if value.headI then formatBin 3 (binToNat shifted ^^^ 3) else shifted

/-- `gf_multiply_by_4(value)`: multiply by 2 twice. -/
def gf_multiply_by_4 (value : List Bool) : List Bool :=
  gf_multiply_by_2 (gf_multiply_by_2 value)

/-- `sub_bytes(matrix, inverse)`: S-Box (or inverse S-Box) lookup on each
of the four cells. -/
def sub_bytes (matrix : M) (inverse : Bool) : M :=
  let box := if inverse then INVERSE_S_BOX else S_BOX
  ⟨boxLookup box matrix.a, boxLookup box matrix.b,
   boxLookup box matrix.c, boxLookup box matrix.d⟩

/-- `shift_rows(matrix, inverse)`: first row unchanged, second row
`np.roll`-ed by `1` (inverse) or `-1`; on a 2-element row both roll
directions swap the two entries. -/
def shift_rows (matrix : M) (inverse : Bool) : M :=
  ⟨matrix.a, matrix.b, matrix.d, matrix.c⟩

/-- `mix_columns(matrix, inverse)`: per-row multiplication by
`[[1, 2], [2, 1]]` (encrypt) or `[[2, 4], [4, 2]]` (decrypt) in GF(2^3),
with `a, b = matrix[0]` and `c, d = matrix[1]`. -/
def mix_columns (matrix : M) (inverse : Bool) : M :=
  if !inverse then
    ⟨gf_add matrix.a (gf_multiply_by_2 matrix.b),
     gf_add (gf_multiply_by_2 matrix.a) matrix.b,
     gf_add matrix.c (gf_multiply_by_2 matrix.d),
     gf_add (gf_multiply_by_2 matrix.c) matrix.d⟩
  else
    ⟨gf_add (gf_multiply_by_2 matrix.a) (gf_multiply_by_4 matrix.b),
     gf_add (gf_multiply_by_4 matrix.a) (gf_multiply_by_2 matrix.b),
     gf_add (gf_multiply_by_2 matrix.c) (gf_multiply_by_4 matrix.d),
     gf_add (gf_multiply_by_4 matrix.c) (gf_multiply_by_2 matrix.d)⟩

/-- `add_round_key(matrix, key)`:
`format(int(matrix_to_block(matrix), 2) ^ int(key, 2), '012b')`, rebuilt
into a matrix.  The key reaches this point as the validated 12-character
'0'/'1' string, modelled by its list of bits. -/
def add_round_key (matrix : M) (key : List Bool) : M :=
  block_to_matrix (formatBin 12 (binToNat (matrix_to_block matrix) ^^^ binToNat key))

/-- `encrypt_block(matrix, key)`:
SubBytes → ShiftRows → MixColumns → AddRoundKey. -/
def encrypt_block (matrix : M) (key : List Bool) : M :=
  add_round_key (mix_columns (shift_rows (sub_bytes matrix false) false) false) key

/-- `decrypt_block(matrix, key)`:
AddRoundKey → InvMixColumns → InvShiftRows → InvSubBytes. -/
def decrypt_block (matrix : M) (key : List Bool) : M :=
  sub_bytes (shift_rows (mix_columns (add_round_key matrix key) true) true) true

/-- The condition under which `validate_key` returns normally:
`len(key) == 12 and all(b in '01' for b in key)`. -/
def validate_key (key : List Char) : Bool :=
  decide (key.length = 12) && key.all (fun c => c == '0' || c == '1')

/-- `validate_key(key)` with its effect made explicit: `ValueError` (whose
message carries the offending key) modelled as `Except.error key`. -/
def validate_key_err (key : List Char) : Except (List Char) Unit :=
  if validate_key key then Except.ok () else Except.error key

/-- The bits of a validated key string: `int(key, 2)` digit by digit. -/
def keyBits (key : List Char) : List Bool :=
  key.map (fun c => c == '1')

/-- `encrypt(plaintext, key)`: validate, blocks, per-block encrypt, hex.
`none` models a raised `ValueError`. -/
def encrypt (plaintext : List Nat) (key : List Char) : Option (List Nat) :=
  if validate_key key then
    matrices_to_hex ((text_to_matrices plaintext).map
      (fun m => encrypt_block m (keyBits key)))
  else none

/-- `decrypt(ciphertext_hex, key)`: validate, blocks, per-block decrypt,
text.  `none` models a raised `ValueError`. -/
def decrypt (ciphertext_hex : List Nat) (key : List Char) : Option (List Nat) :=
  if validate_key key then
    (hex_to_matrices ciphertext_hex).map
      (fun ms => matrices_to_text (ms.map (fun m => decrypt_block m (keyBits key))))
  else none

/-! ## Spec-side definitions (from the spec's words, for comparison) -/

/-- Modelled from the spec: multiplication by the field generator x in
GF(2^3) — shift (multiply the polynomial by x) and, when a degree-3 term
appears, reduce by XORing the irreducible polynomial x³+x+1 (binary 1011). -/
def specMulX (a : Nat) : Nat :=
  if 2 * a < 8 then 2 * a else (2 * a) ^^^ 11

/-- `s.rstrip('\x00')` on a decoded plaintext: drop trailing null
characters. -/
def stripTrailingNulls (s : List Nat) : List Nat :=
  (s.reverse.dropWhile (fun c => c == 0)).reverse

/-- The forward S-Box as a function on field elements 0..7 (the table keys
and values read as 3-bit numbers). -/
def sboxN (v : Fin 8) : Fin 8 :=
  ⟨binToNat (boxLookup S_BOX (toBitsFixed 3 v.val)) % 8, Nat.mod_lt _ (by omega)⟩

/-- Well-formedness of a state matrix: all four cells are 3-bit strings
(the invariant every transformation maintains). -/
def wfM (m : M) : Prop :=
  m.a.length = 3 ∧ m.b.length = 3 ∧ m.c.length = 3 ∧ m.d.length = 3

instance (m : M) : Decidable (wfM m) := by
  unfold wfM
  infer_instance

/-! ## Arithmetic lemmas about the digit-string primitives -/

theorem mod_base_pow_succ (b n w : Nat) (hb : 0 < b) :
    n % b ^ (w + 1) = b * (n / b % b ^ w) + n % b := by
  have hq : n / b % b ^ w < b ^ w := Nat.mod_lt _ (Nat.pos_pow_of_pos _ hb)
  have hd : b * (n / b) + n % b = n := Nat.div_add_mod n b
  have hsplit : n / b = b ^ w * (n / b / b ^ w) + n / b % b ^ w := (Nat.div_add_mod _ _).symm
  have hr : n % b < b := Nat.mod_lt _ hb
  calc n % b ^ (w + 1)
      = (b * (n / b) + n % b) % b ^ (w + 1) := by rw [hd]
    _ = (b ^ (w + 1) * (n / b / b ^ w) + (b * (n / b % b ^ w) + n % b)) % b ^ (w + 1) := by
        congr 1
        conv_lhs => rw [hsplit]
        ring
    _ = (b * (n / b % b ^ w) + n % b) % b ^ (w + 1) := by rw [Nat.mul_add_mod]
    _ = b * (n / b % b ^ w) + n % b := Nat.mod_eq_of_lt (by rw [pow_succ]; nlinarith)

theorem binToNat_snoc (xs : List Bool) (b : Bool) :
    binToNat (xs ++ [b]) = 2 * binToNat xs + b.toNat := by
  simp [binToNat, List.foldl_append]

theorem binToNat_lt (bs : List Bool) : binToNat bs < 2 ^ bs.length := by
  induction bs using List.reverseRecOn with
  | nil => simp [binToNat]
  | append_singleton xs b ih =>
      rw [binToNat_snoc]
      have hb : b.toNat ≤ 1 := Bool.toNat_le b
      simp only [List.length_append, List.length_singleton, pow_succ]
      omega

theorem toBitsFixed_length (w n : Nat) : (toBitsFixed w n).length = w := by
  induction w generalizing n with
  | zero => rfl
  | succ w ih => simp [toBitsFixed, ih]

theorem binToNat_toBitsFixed (w n : Nat) : binToNat (toBitsFixed w n) = n % 2 ^ w := by
  induction w generalizing n with
  | zero => simp [toBitsFixed, binToNat, Nat.mod_one]
  | succ w ih =>
      rw [toBitsFixed, binToNat_snoc, ih, mod_base_pow_succ 2 n w (by norm_num)]
      rcases Nat.mod_two_eq_zero_or_one n with h | h <;> simp [h]

theorem toBitsFixed_binToNat (bs : List Bool) : toBitsFixed bs.length (binToNat bs) = bs := by
  induction bs using List.reverseRecOn with
  | nil => rfl
  | append_singleton xs b ih =>
      rw [binToNat_snoc]
      simp only [List.length_append, List.length_singleton]
      rw [toBitsFixed]
      have h1 : (2 * binToNat xs + b.toNat) / 2 = binToNat xs := by
        have := Bool.toNat_le b; omega
      have h2 : (2 * binToNat xs + b.toNat) % 2 = b.toNat := by
        have := Bool.toNat_le b; omega
      rw [h1, h2, ih]
      cases b <;> rfl

theorem bitLenAux_le (fuel n w : Nat) (h : n < 2 ^ w) : bitLenAux fuel n ≤ w := by
  induction fuel generalizing n w with
  | zero => simp [bitLenAux]
  | succ fuel ih =>
      rw [bitLenAux]
      split
      · exact Nat.zero_le w
      · rename_i hn
        have hw : w ≠ 0 := by
          rintro rfl
          simp at h
          omega
        obtain ⟨w', rfl⟩ : ∃ w', w = w' + 1 := ⟨w - 1, by omega⟩
        have hdiv : n / 2 < 2 ^ w' := by
          have h2 : n < 2 ^ w' * 2 := by rw [← pow_succ]; exact h
          omega
        have := ih (n / 2) w' hdiv
        omega

theorem pyBitLen_le (n w : Nat) (h : n < 2 ^ w) (hw : 1 ≤ w) : pyBitLen n ≤ w := by
  have := bitLenAux_le n n w h
  unfold pyBitLen
  omega

theorem formatBin_eq (w n : Nat) (h : n < 2 ^ w) (hw : 1 ≤ w) :
    formatBin w n = toBitsFixed w n := by
  unfold formatBin
  rw [Nat.max_eq_left (pyBitLen_le n w h hw)]

theorem formatBin_length (w n : Nat) (h : n < 2 ^ w) (hw : 1 ≤ w) :
    (formatBin w n).length = w := by
  rw [formatBin_eq w n h hw, toBitsFixed_length]

theorem binToNat_formatBin (w n : Nat) (h : n < 2 ^ w) (hw : 1 ≤ w) :
    binToNat (formatBin w n) = n := by
  rw [formatBin_eq w n h hw, binToNat_toBitsFixed, Nat.mod_eq_of_lt h]

theorem hexToNat_snoc (xs : List Nat) (d : Nat) :
    hexToNat (xs ++ [d]) = 16 * hexToNat xs + d := by
  simp [hexToNat, List.foldl_append]

theorem toHexFixed_length (w n : Nat) : (toHexFixed w n).length = w := by
  induction w generalizing n with
  | zero => rfl
  | succ w ih => simp [toHexFixed, ih]

theorem hexToNat_toHexFixed (w n : Nat) : hexToNat (toHexFixed w n) = n % 16 ^ w := by
  induction w generalizing n with
  | zero => simp [toHexFixed, hexToNat, Nat.mod_one]
  | succ w ih =>
      rw [toHexFixed, hexToNat_snoc, ih, mod_base_pow_succ 16 n w (by norm_num)]

theorem toHexFixed_mem_lt (w n d : Nat) (h : d ∈ toHexFixed w n) : d < 16 := by
  induction w generalizing n with
  | zero => simp [toHexFixed] at h
  | succ w ih =>
      rw [toHexFixed] at h
      rcases List.mem_append.mp h with h' | h'
      · exact ih _ h'
      · rw [List.mem_singleton.mp h']
        exact Nat.mod_lt _ (by norm_num)

theorem hexLenAux_le (fuel n w : Nat) (h : n < 16 ^ w) : hexLenAux fuel n ≤ w := by
  induction fuel generalizing n w with
  | zero => simp [hexLenAux]
  | succ fuel ih =>
      rw [hexLenAux]
      split
      · exact Nat.zero_le w
      · rename_i hn
        have hw : w ≠ 0 := by
          rintro rfl
          simp at h
          omega
        obtain ⟨w', rfl⟩ : ∃ w', w = w' + 1 := ⟨w - 1, by omega⟩
        have hdiv : n / 16 < 16 ^ w' := by
          have h2 : n < 16 ^ w' * 16 := by rw [← pow_succ]; exact h
          omega
        have := ih (n / 16) w' hdiv
        omega

theorem hexLenAux_lt (fuel n : Nat) (h : n ≤ fuel) : n < 16 ^ hexLenAux fuel n := by
  induction fuel generalizing n with
  | zero =>
      have : n = 0 := by omega
      subst this
      simp [hexLenAux]
  | succ fuel ih =>
      rw [hexLenAux]
      split
      · rename_i h0; subst h0; simp
      · rename_i hn
        have hfuel : n / 16 ≤ fuel := by omega
        have := ih (n / 16) hfuel
        rw [pow_succ]
        omega

theorem pyHexLen_le (n w : Nat) (h : n < 16 ^ w) (hw : 1 ≤ w) : pyHexLen n ≤ w := by
  have := hexLenAux_le n n w h
  unfold pyHexLen
  omega

theorem natToHex_lt (n : Nat) : n < 16 ^ pyHexLen n := by
  have h := hexLenAux_lt n n le_rfl
  unfold pyHexLen
  exact lt_of_lt_of_le h (Nat.pow_le_pow_right (by norm_num) (Nat.le_max_right 1 _))

theorem hexToNat_replicate_zero (k : Nat) (s : List Nat) :
    hexToNat (List.replicate k 0 ++ s) = hexToNat s := by
  induction k with
  | zero => rfl
  | succ k ih =>
      rw [List.replicate_succ, List.cons_append]
      simpa [hexToNat] using ih

theorem zfillZeros_length (k : Nat) (s : List Nat) :
    (zfillZeros k s).length = max k s.length := by
  simp only [zfillZeros, List.length_append, List.length_replicate]
  omega

theorem natToHex_hexToNat (n : Nat) : hexToNat (natToHex n) = n := by
  unfold natToHex
  rw [hexToNat_toHexFixed, Nat.mod_eq_of_lt (natToHex_lt n)]

/-- `binary_to_hex` succeeds on a non-empty bit string whose length is a
multiple of 4, produces exactly `length / 4` hex digits (all < 16), and
`hex_to_binary` inverts it exactly. -/
theorem binary_to_hex_spec (bs : List Bool) (hne : bs ≠ []) (h4 : bs.length % 4 = 0) :
    ∃ hs, binary_to_hex bs = some hs ∧ hs.length = bs.length / 4 ∧
      (∀ d ∈ hs, d < 16) ∧ hex_to_binary hs = some bs := by
  have hlpos : 0 < bs.length := List.length_pos.mpr hne
  have hm1 : 1 ≤ bs.length / 4 := by omega
  have hv : binToNat bs < 16 ^ (bs.length / 4) := by
    have h1 : binToNat bs < 2 ^ bs.length := binToNat_lt bs
    have h2 : (2 : Nat) ^ bs.length = 16 ^ (bs.length / 4) := by
      have hl : bs.length = 4 * (bs.length / 4) := by omega
      rw [hl, pow_mul]
      norm_num
    omega
  have hple : pyHexLen (binToNat bs) ≤ bs.length / 4 := pyHexLen_le _ _ hv hm1
  have hhexlen : (natToHex (binToNat bs)).length = pyHexLen (binToNat bs) := by
    unfold natToHex
    exact toHexFixed_length _ _
  have hempty : bs.isEmpty = false := by
    cases bs with
    | nil => exact absurd rfl hne
    | cons x xs => rfl
  have hzlen : (zfillZeros (bs.length / 4) (natToHex (binToNat bs))).length = bs.length / 4 := by
    rw [zfillZeros_length, hhexlen]
    omega
  have hdig : ∀ d ∈ zfillZeros (bs.length / 4) (natToHex (binToNat bs)), d < 16 := by
    intro d hd
    rcases List.mem_append.mp hd with h' | h'
    · rw [List.eq_of_mem_replicate h']
      norm_num
    · exact toHexFixed_mem_lt _ _ _ h'
  refine ⟨zfillZeros (bs.length / 4) (natToHex (binToNat bs)), ?_, hzlen, hdig, ?_⟩
  · simp [binary_to_hex, hempty]
  · have hzne : (zfillZeros (bs.length / 4) (natToHex (binToNat bs))).isEmpty = false := by
      rw [List.isEmpty_eq_false_iff_exists_mem]
      have : 0 < (zfillZeros (bs.length / 4) (natToHex (binToNat bs))).length := by omega
      exact List.exists_mem_of_length_pos this
    have hall : (zfillZeros (bs.length / 4) (natToHex (binToNat bs))).all
        (fun d => decide (d < 16)) = true := by
      rw [List.all_eq_true]
      intro d hd
      exact decide_eq_true (hdig d hd)
    rw [hex_to_binary, hzne, hall]
    rw [if_neg (by simp)]
    rw [hzlen]
    unfold zfillZeros
    rw [hexToNat_replicate_zero, natToHex_hexToNat]
    have hl4 : bs.length / 4 * 4 = bs.length := by omega
    rw [hl4, formatBin_eq bs.length (binToNat bs) (binToNat_lt bs) (by omega),
      toBitsFixed_binToNat]

/-! ## Cell-level lemmas (GF(2^3) arithmetic and the S-Box) -/

theorem gf_add_length (a b : List Bool) (ha : a.length = 3) (hb : b.length = 3) :
    (gf_add a b).length = 3 := by
  have h1 := binToNat_lt a
  have h2 := binToNat_lt b
  rw [ha] at h1
  rw [hb] at h2
  exact formatBin_length 3 _ (Nat.xor_lt_two_pow h1 h2) (by norm_num)

theorem gf_multiply_by_2_length (a : List Bool) (ha : a.length = 3) :
    (gf_multiply_by_2 a).length = 3 := by
  match a, ha with
  | [x, y, z], _ => cases x <;> cases y <;> cases z <;> decide

theorem gf_multiply_by_4_length (a : List Bool) (ha : a.length = 3) :
    (gf_multiply_by_4 a).length = 3 :=
  gf_multiply_by_2_length _ (gf_multiply_by_2_length a ha)

theorem sbox_cell_length (c : List Bool) (hc : c.length = 3) :
    (boxLookup S_BOX c).length = 3 := by
  match c, hc with
  | [x, y, z], _ => cases x <;> cases y <;> cases z <;> decide

theorem inv_sbox_cell_length (c : List Bool) (hc : c.length = 3) :
    (boxLookup INVERSE_S_BOX c).length = 3 := by
  match c, hc with
  | [x, y, z], _ => cases x <;> cases y <;> cases z <;> decide

theorem sbox_cell_inv (c : List Bool) (hc : c.length = 3) :
    boxLookup INVERSE_S_BOX (boxLookup S_BOX c) = c := by
  match c, hc with
  | [x, y, z], _ => cases x <;> cases y <;> cases z <;> decide

theorem mix_cell_left (a b : List Bool) (ha : a.length = 3) (hb : b.length = 3) :
    gf_add (gf_multiply_by_2 (gf_add a (gf_multiply_by_2 b)))
      (gf_multiply_by_4 (gf_add (gf_multiply_by_2 a) b)) = a := by
  match a, ha, b, hb with
  | [x1, x2, x3], _, [y1, y2, y3], _ =>
      revert x1 x2 x3 y1 y2 y3
      decide

theorem mix_cell_right (a b : List Bool) (ha : a.length = 3) (hb : b.length = 3) :
    gf_add (gf_multiply_by_4 (gf_add a (gf_multiply_by_2 b)))
      (gf_multiply_by_2 (gf_add (gf_multiply_by_2 a) b)) = b := by
  match a, ha, b, hb with
  | [x1, x2, x3], _, [y1, y2, y3], _ =>
      revert x1 x2 x3 y1 y2 y3
      decide

/-! ## Matrix-level lemmas -/

theorem matrix_to_block_length (m : M) (h : wfM m) : (matrix_to_block m).length = 12 := by
  obtain ⟨h1, h2, h3, h4⟩ := h
  simp [matrix_to_block, List.length_append]
  omega

theorem block_to_matrix_wf (bl : List Bool) (h : bl.length = 12) : wfM (block_to_matrix bl) := by
  simp only [wfM, block_to_matrix, List.length_take, List.length_drop]
  omega

theorem mtb_btm (bl : List Bool) (h : bl.length = 12) :
    matrix_to_block (block_to_matrix bl) = bl := by
  match bl, h with
  | [b0, b1, b2, b3, b4, b5, b6, b7, b8, b9, b10, b11], _ => rfl

theorem btm_mtb (m : M) (h : wfM m) : block_to_matrix (matrix_to_block m) = m := by
  obtain ⟨a, b, c, d⟩ := m
  obtain ⟨h1, h2, h3, h4⟩ := h
  match a, h1, b, h2, c, h3, d, h4 with
  | [a1, a2, a3], _, [b1, b2, b3], _, [c1, c2, c3], _, [d1, d2, d3], _ => rfl

theorem sub_bytes_wf (m : M) (inv : Bool) (h : wfM m) : wfM (sub_bytes m inv) := by
  obtain ⟨h1, h2, h3, h4⟩ := h
  cases inv
  · exact ⟨sbox_cell_length _ h1, sbox_cell_length _ h2,
      sbox_cell_length _ h3, sbox_cell_length _ h4⟩
  · exact ⟨inv_sbox_cell_length _ h1, inv_sbox_cell_length _ h2,
      inv_sbox_cell_length _ h3, inv_sbox_cell_length _ h4⟩

theorem sub_bytes_inv_sub_bytes (m : M) (h : wfM m) :
    sub_bytes (sub_bytes m false) true = m := by
  obtain ⟨a, b, c, d⟩ := m
  obtain ⟨h1, h2, h3, h4⟩ := h
  simp only [sub_bytes, if_true, if_false]
  rw [M.mk.injEq]
  exact ⟨sbox_cell_inv a h1, sbox_cell_inv b h2, sbox_cell_inv c h3, sbox_cell_inv d h4⟩

theorem shift_rows_wf (m : M) (inv : Bool) (h : wfM m) : wfM (shift_rows m inv) := by
  obtain ⟨h1, h2, h3, h4⟩ := h
  exact ⟨h1, h2, h4, h3⟩

theorem shift_rows_shift_rows (m : M) (i j : Bool) : shift_rows (shift_rows m i) j = m := by
  cases m
  rfl

theorem mix_columns_wf (m : M) (inv : Bool) (h : wfM m) : wfM (mix_columns m inv) := by
  obtain ⟨h1, h2, h3, h4⟩ := h
  cases inv
  case false =>
    exact ⟨gf_add_length _ _ h1 (gf_multiply_by_2_length _ h2),
      gf_add_length _ _ (gf_multiply_by_2_length _ h1) h2,
      gf_add_length _ _ h3 (gf_multiply_by_2_length _ h4),
      gf_add_length _ _ (gf_multiply_by_2_length _ h3) h4⟩
  case true =>
    exact ⟨gf_add_length _ _ (gf_multiply_by_2_length _ h1) (gf_multiply_by_4_length _ h2),
      gf_add_length _ _ (gf_multiply_by_4_length _ h1) (gf_multiply_by_2_length _ h2),
      gf_add_length _ _ (gf_multiply_by_2_length _ h3) (gf_multiply_by_4_length _ h4),
      gf_add_length _ _ (gf_multiply_by_4_length _ h3) (gf_multiply_by_2_length _ h4)⟩

theorem mix_columns_inv_mix_columns (m : M) (h : wfM m) :
    mix_columns (mix_columns m false) true = m := by
  obtain ⟨a, b, c, d⟩ := m
  obtain ⟨h1, h2, h3, h4⟩ := h
  simp only [mix_columns, Bool.not_false, Bool.not_true, if_true, if_false]
  rw [M.mk.injEq]
  exact ⟨mix_cell_left a b h1 h2, mix_cell_right a b h1 h2,
    mix_cell_left c d h3 h4, mix_cell_right c d h3 h4⟩

theorem add_round_key_wf (m : M) (k : List Bool) (hm : wfM m) (hk : k.length = 12) :
    wfM (add_round_key m k) := by
  have h1 := binToNat_lt (matrix_to_block m)
  have h2 := binToNat_lt k
  rw [matrix_to_block_length m hm] at h1
  rw [hk] at h2
  have hx : binToNat (matrix_to_block m) ^^^ binToNat k < 2 ^ 12 := Nat.xor_lt_two_pow h1 h2
  exact block_to_matrix_wf _ (formatBin_length 12 _ hx (by norm_num))

theorem add_round_key_add_round_key (m : M) (k : List Bool)
    (hm : wfM m) (hk : k.length = 12) : add_round_key (add_round_key m k) k = m := by
  have h1 := binToNat_lt (matrix_to_block m)
  have h2 := binToNat_lt k
  rw [matrix_to_block_length m hm] at h1
  rw [hk] at h2
  have hx : binToNat (matrix_to_block m) ^^^ binToNat k < 2 ^ 12 := Nat.xor_lt_two_pow h1 h2
  unfold add_round_key
  rw [formatBin_eq 12 _ hx (by norm_num)]
  rw [mtb_btm _ (toBitsFixed_length 12 _)]
  rw [binToNat_toBitsFixed, Nat.mod_eq_of_lt hx, Nat.xor_cancel_right]
  have hf : (matrix_to_block m).length = 12 := matrix_to_block_length m hm
  rw [formatBin_eq 12 _ h1 (by norm_num), ← hf, toBitsFixed_binToNat]
  exact btm_mtb m hm

theorem encrypt_block_wf (m : M) (k : List Bool) (hm : wfM m) (hk : k.length = 12) :
    wfM (encrypt_block m k) :=
  add_round_key_wf _ _ (mix_columns_wf _ _ (shift_rows_wf _ _ (sub_bytes_wf _ _ hm))) hk

theorem decrypt_block_encrypt_block (m : M) (k : List Bool)
    (hm : wfM m) (hk : k.length = 12) : decrypt_block (encrypt_block m k) k = m := by
  unfold encrypt_block decrypt_block
  rw [add_round_key_add_round_key _ k
    (mix_columns_wf _ _ (shift_rows_wf _ _ (sub_bytes_wf _ _ hm))) hk]
  rw [mix_columns_inv_mix_columns _ (shift_rows_wf _ _ (sub_bytes_wf _ _ hm))]
  rw [shift_rows_shift_rows]
  exact sub_bytes_inv_sub_bytes m hm

/-! ## Block-splitting and text-codec lemmas -/

theorem pad_block_of_length (b : List Bool) (h : b.length = 12) : pad_block b 12 = b := by
  simp [pad_block, h]

theorem binary_to_blocks_cons12 (b bs : List Bool) (hb : b.length = 12) :
    binary_to_blocks (b ++ bs) = b :: binary_to_blocks bs := by
  match b, hb with
  | [x0, x1, x2, x3, x4, x5, x6, x7, x8, x9, x10, x11], _ =>
      simp [binary_to_blocks, pad_block]

theorem binary_to_blocks_short (bs : List Bool) (hne : bs ≠ []) (hlt : bs.length < 12) :
    binary_to_blocks bs = [pad_block bs 12] := by
  rcases bs with _ | ⟨x0, _ | ⟨x1, _ | ⟨x2, _ | ⟨x3, _ | ⟨x4, _ | ⟨x5, _ | ⟨x6, _ | ⟨x7,
    _ | ⟨x8, _ | ⟨x9, _ | ⟨x10, _ | ⟨x11, rest⟩⟩⟩⟩⟩⟩⟩⟩⟩⟩⟩⟩
  · exact absurd rfl hne
  · rfl
  · rfl
  · rfl
  · rfl
  · rfl
  · rfl
  · rfl
  · rfl
  · rfl
  · rfl
  · rfl
  · simp at hlt
    omega

theorem binary_to_blocks_mem_length (bs : List Bool) :
    ∀ b ∈ binary_to_blocks bs, b.length = 12 := by
  suffices H : ∀ n bs, List.length bs ≤ n → ∀ b ∈ binary_to_blocks bs, b.length = 12 by
    exact H bs.length bs le_rfl
  intro n
  induction n with
  | zero =>
      intro bs hlen b hb
      have : bs = [] := List.eq_nil_of_length_eq_zero (by omega)
      subst this
      simp [binary_to_blocks] at hb
  | succ n ih =>
      intro bs hlen b hb
      by_cases hne : bs = []
      · subst hne
        simp [binary_to_blocks] at hb
      · by_cases hlt : bs.length < 12
        · rw [binary_to_blocks_short bs hne hlt] at hb
          have hpos : 0 < bs.length := List.length_pos.mpr hne
          rcases List.mem_singleton.mp hb with rfl
          simp [pad_block]
          omega
        · have htake : (bs.take 12).length = 12 := by
            rw [List.length_take]
            omega
          rw [← List.take_append_drop 12 bs, binary_to_blocks_cons12 _ _ htake] at hb
          rcases List.mem_cons.mp hb with rfl | hb'
          · exact htake
          · exact ih (bs.drop 12) (by rw [List.length_drop]; omega) b hb'

theorem binary_to_blocks_flatten (bs : List Bool) :
    (binary_to_blocks bs).flatten
      = bs ++ List.replicate ((12 - bs.length % 12) % 12) false := by
  suffices H : ∀ n bs, List.length bs ≤ n → (binary_to_blocks bs).flatten
      = bs ++ List.replicate ((12 - bs.length % 12) % 12) false by
    exact H bs.length bs le_rfl
  intro n
  induction n with
  | zero =>
      intro bs hlen
      have : bs = [] := List.eq_nil_of_length_eq_zero (by omega)
      subst this
      rfl
  | succ n ih =>
      intro bs hlen
      by_cases hne : bs = []
      · subst hne
        rfl
      · by_cases hlt : bs.length < 12
        · rw [binary_to_blocks_short bs hne hlt]
          have hpos : 0 < bs.length := List.length_pos.mpr hne
          have hmod : (12 - bs.length % 12) % 12 = 12 - bs.length := by omega
          rw [hmod]
          simp [pad_block]
        · have htake : (bs.take 12).length = 12 := by
            rw [List.length_take]
            omega
          have hdl : (bs.drop 12).length = bs.length - 12 := List.length_drop 12 bs
          have hmod : (12 - (bs.drop 12).length % 12) % 12 = (12 - bs.length % 12) % 12 := by
            rw [hdl]
            omega
          calc (binary_to_blocks bs).flatten
              = (binary_to_blocks (bs.take 12 ++ bs.drop 12)).flatten := by
                rw [List.take_append_drop]
            _ = ((bs.take 12) :: binary_to_blocks (bs.drop 12)).flatten := by
                rw [binary_to_blocks_cons12 _ _ htake]
            _ = bs.take 12 ++ (binary_to_blocks (bs.drop 12)).flatten := by
                simp [List.flatten_cons]
            _ = bs.take 12 ++ (bs.drop 12
                  ++ List.replicate ((12 - (bs.drop 12).length % 12) % 12) false) := by
                rw [ih (bs.drop 12) (by omega)]
            _ = bs ++ List.replicate ((12 - bs.length % 12) % 12) false := by
                rw [hmod, ← List.append_assoc, List.take_append_drop]

theorem binary_to_blocks_of_flatten (L : List (List Bool)) (h : ∀ b ∈ L, b.length = 12) :
    binary_to_blocks L.flatten = L := by
  induction L with
  | nil => rfl
  | cons b L ih =>
      rw [List.flatten_cons, binary_to_blocks_cons12 _ _ (h b (List.mem_cons_self b L))]
      rw [ih (fun x hx => h x (List.mem_cons_of_mem b hx))]

theorem binary_to_blocks_count (bs : List Bool) :
    (binary_to_blocks bs).length = (bs.length + 11) / 12 := by
  suffices H : ∀ n bs, List.length bs ≤ n →
      (binary_to_blocks bs).length = (bs.length + 11) / 12 by
    exact H bs.length bs le_rfl
  intro n
  induction n with
  | zero =>
      intro bs hlen
      have : bs = [] := List.eq_nil_of_length_eq_zero (by omega)
      subst this
      rfl
  | succ n ih =>
      intro bs hlen
      by_cases hne : bs = []
      · subst hne
        rfl
      · by_cases hlt : bs.length < 12
        · rw [binary_to_blocks_short bs hne hlt]
          have hpos : 0 < bs.length := List.length_pos.mpr hne
          simp only [List.length_singleton]
          omega
        · have htake : (bs.take 12).length = 12 := by
            rw [List.length_take]
            omega
          rw [← List.take_append_drop 12 bs, binary_to_blocks_cons12 _ _ htake]
          simp only [List.length_cons, List.length_append, List.length_take, List.length_drop,
            ih (bs.drop 12) (by rw [List.length_drop]; omega), List.take_append_drop]
          omega

theorem flatten_length_const (L : List (List Bool)) (h : ∀ b ∈ L, b.length = 12) :
    L.flatten.length = 12 * L.length := by
  induction L with
  | nil => rfl
  | cons b L ih =>
      rw [List.flatten_cons, List.length_append, List.length_cons,
        h b (List.mem_cons_self b L), ih (fun x hx => h x (List.mem_cons_of_mem b hx))]
      ring

theorem binary_to_text_cons8 (c bs : List Bool) (hc : c.length = 8) :
    binary_to_text (c ++ bs) = binToNat c :: binary_to_text bs := by
  match c, hc with
  | [x0, x1, x2, x3, x4, x5, x6, x7], _ => rfl

theorem text_to_binary_append_decode (pt : List Nat) (z : List Bool)
    (hc : ∀ c ∈ pt, c < 256) :
    binary_to_text (text_to_binary pt ++ z) = pt ++ binary_to_text z := by
  induction pt with
  | nil => rfl
  | cons c pt ih =>
      have hc0 : c < 256 := hc c (List.mem_cons_self c pt)
      have hrest : ∀ x ∈ pt, x < 256 := fun x hx => hc x (List.mem_cons_of_mem c hx)
      have hlen8 : (formatBin 8 c).length = 8 := formatBin_length 8 c hc0 (by norm_num)
      have hval : binToNat (formatBin 8 c) = c := binToNat_formatBin 8 c hc0 (by norm_num)
      calc binary_to_text (text_to_binary (c :: pt) ++ z)
          = binary_to_text (formatBin 8 c ++ (text_to_binary pt ++ z)) := by
            simp [text_to_binary, List.flatten_cons, List.append_assoc]
        _ = binToNat (formatBin 8 c) :: binary_to_text (text_to_binary pt ++ z) :=
            binary_to_text_cons8 _ _ hlen8
        _ = c :: (pt ++ binary_to_text z) := by rw [hval, ih hrest]
        _ = (c :: pt) ++ binary_to_text z := rfl

theorem text_to_binary_length (pt : List Nat) (hc : ∀ c ∈ pt, c < 256) :
    (text_to_binary pt).length = 8 * pt.length := by
  induction pt with
  | nil => rfl
  | cons c pt ih =>
      have hc0 : c < 256 := hc c (List.mem_cons_self c pt)
      have hrest : ∀ x ∈ pt, x < 256 := fun x hx => hc x (List.mem_cons_of_mem c hx)
      simp only [text_to_binary, List.map_cons, List.flatten_cons, List.length_append,
        List.length_cons]
      rw [formatBin_length 8 c hc0 (by norm_num)]
      have := ih hrest
      simp only [text_to_binary] at this
      rw [this]
      ring

/-! ## Driver-level lemmas -/

theorem strip_append_nulls (l : List Nat) (n : Nat) (h : l.getLast? ≠ some 0) :
    stripTrailingNulls (l ++ List.replicate n 0) = l := by
  unfold stripTrailingNulls
  rw [List.reverse_append, List.reverse_replicate]
  have hdw : ∀ (k : Nat) (t : List Nat),
      List.dropWhile (fun c => c == 0) (List.replicate k 0 ++ t)
        = List.dropWhile (fun c => c == 0) t := by
    intro k
    induction k with
    | zero => intro t; rfl
    | succ k ih =>
        intro t
        rw [List.replicate_succ, List.cons_append, List.dropWhile_cons]
        simp only [beq_self_eq_true, if_true]
        exact ih t
  rw [hdw]
  cases hrev : l.reverse with
  | nil =>
      have hl : l = [] := by simpa using congrArg List.reverse hrev
      subst hl
      rfl
  | cons x t =>
      have hx : l.getLast? = some x := by rw [← List.head?_reverse, hrev]; rfl
      have hx0 : x ≠ 0 := by
        intro h0
        rw [h0] at hx
        exact h hx
      rw [List.dropWhile_cons, if_neg (by simp [hx0]), ← hrev, List.reverse_reverse]

theorem block_bits_roundtrip (bl k : List Bool) (hb : bl.length = 12) (hk : k.length = 12) :
    matrix_to_block (decrypt_block (block_to_matrix
      (matrix_to_block (encrypt_block (block_to_matrix bl) k))) k) = bl := by
  rw [btm_mtb _ (encrypt_block_wf _ _ (block_to_matrix_wf _ hb) hk)]
  rw [decrypt_block_encrypt_block _ _ (block_to_matrix_wf _ hb) hk]
  exact mtb_btm _ hb

theorem validate_key_iff (key : List Char) :
    validate_key key = true ↔ key.length = 12 ∧ ∀ c ∈ key, c = '0' ∨ c = '1' := by
  unfold validate_key
  rw [Bool.and_eq_true, decide_eq_true_iff, List.all_eq_true]
  constructor
  · rintro ⟨h1, h2⟩
    refine ⟨h1, fun c hc => ?_⟩
    have := h2 c hc
    rcases Bool.or_eq_true_iff.mp this with h' | h'
    · exact Or.inl (eq_of_beq h')
    · exact Or.inr (eq_of_beq h')
  · rintro ⟨h1, h2⟩
    refine ⟨h1, fun c hc => ?_⟩
    rcases h2 c hc with h' | h' <;> simp [h']

theorem keyBits_length (key : List Char) (h : validate_key key = true) :
    (keyBits key).length = 12 := by
  rw [keyBits, List.length_map]
  exact ((validate_key_iff key).mp h).1

theorem encrypt_eq (pt : List Nat) (key : List Char) (hkey : validate_key key = true) :
    encrypt pt key = binary_to_hex (((binary_to_blocks (text_to_binary pt)).map
      (fun b => matrix_to_block (encrypt_block (block_to_matrix b) (keyBits key)))).flatten) := by
  unfold encrypt matrices_to_hex text_to_matrices
  rw [if_pos hkey, List.map_map, List.map_map]
  rfl

theorem text_to_binary_ne_nil (pt : List Nat) (hne : pt ≠ []) : text_to_binary pt ≠ [] := by
  cases pt with
  | nil => exact absurd rfl hne
  | cons c pt =>
      have h8 : (formatBin 8 c).length = max 8 (pyBitLen c) := by
        unfold formatBin
        exact toBitsFixed_length _ _
      intro hcontra
      have := congrArg List.length hcontra
      simp only [text_to_binary, List.map_cons, List.flatten_cons, List.length_append,
        List.length_nil] at this
      omega

theorem encrypt_some (pt : List Nat) (key : List Char)
    (hkey : validate_key key = true) (hne : pt ≠ []) : ∃ ct, encrypt pt key = some ct := by
  rw [encrypt_eq pt key hkey]
  have hk := keyBits_length key hkey
  have hblne : (binary_to_blocks (text_to_binary pt)).length ≠ 0 := by
    rw [binary_to_blocks_count]
    have : text_to_binary pt ≠ [] := text_to_binary_ne_nil pt hne
    have : (text_to_binary pt).length ≠ 0 := fun h => this (List.eq_nil_of_length_eq_zero h)
    omega
  have hmem : ∀ b ∈ (binary_to_blocks (text_to_binary pt)).map
      (fun b => matrix_to_block (encrypt_block (block_to_matrix b) (keyBits key))),
      b.length = 12 := by
    intro b hb
    obtain ⟨x, hx, rfl⟩ := List.mem_map.mp hb
    exact matrix_to_block_length _ (encrypt_block_wf _ _
      (block_to_matrix_wf _ (binary_to_blocks_mem_length _ x hx)) hk)
  have hflatlen := flatten_length_const _ hmem
  rw [List.length_map] at hflatlen
  have hflatne : (((binary_to_blocks (text_to_binary pt)).map
      (fun b => matrix_to_block (encrypt_block (block_to_matrix b) (keyBits key)))).flatten) ≠ [] := by
    intro hcontra
    have := congrArg List.length hcontra
    rw [hflatlen, List.length_nil] at this
    omega
  have hempty : (((binary_to_blocks (text_to_binary pt)).map
      (fun b => matrix_to_block (encrypt_block (block_to_matrix b) (keyBits key)))).flatten).isEmpty
        = false := by
    cases hflat : ((binary_to_blocks (text_to_binary pt)).map
        (fun b => matrix_to_block (encrypt_block (block_to_matrix b) (keyBits key)))).flatten with
    | nil => exact absurd hflat hflatne
    | cons x xs => rfl
  unfold binary_to_hex
  rw [hempty]
  exact ⟨_, rfl⟩

theorem decrypt_some (hs : List Nat) (key : List Char) (hkey : validate_key key = true)
    (hne : hs ≠ []) (hdig : ∀ d ∈ hs, d < 16) : ∃ p, decrypt hs key = some p := by
  have h1 : hs.isEmpty = false := by
    cases hs with
    | nil => exact absurd rfl hne
    | cons x xs => rfl
  have h2 : hs.all (fun d => decide (d < 16)) = true := by
    rw [List.all_eq_true]
    intro d hd
    exact decide_eq_true (hdig d hd)
  have h3 : hex_to_binary hs = some (formatBin (hs.length * 4) (hexToNat hs)) := by
    unfold hex_to_binary
    rw [h1, h2]
    rfl
  refine ⟨matrices_to_text (((binary_to_blocks (formatBin (hs.length * 4)
    (hexToNat hs))).map block_to_matrix).map (fun m => decrypt_block m (keyBits key))), ?_⟩
  unfold decrypt hex_to_matrices
  rw [if_pos hkey, h3]
  rfl

/-- Master round-trip lemma: on a non-empty plaintext of 8-bit characters
with a valid key, `encrypt` succeeds, the ciphertext has exactly
`3 · ceil(8·len/12)` hex digits, and `decrypt` returns the plaintext
followed by the padding-artifact null characters (none when the bit
length is a block multiple, a single null otherwise). -/
theorem encrypt_decrypt_master (pt : List Nat) (key : List Char)
    (hkey : validate_key key = true) (hne : pt ≠ []) (hc : ∀ c ∈ pt, c < 256) :
    ∃ ct, encrypt pt key = some ct ∧
      ct.length = 3 * ((8 * pt.length + 11) / 12) ∧
      (∀ d ∈ ct, d < 16) ∧
      decrypt ct key = some (pt ++ List.replicate
        (if 8 * pt.length % 12 = 0 then 0 else 1) 0) := by
  have hk : (keyBits key).length = 12 := keyBits_length key hkey
  have hbsl : (text_to_binary pt).length = 8 * pt.length := text_to_binary_length pt hc
  have hptpos : 0 < pt.length := List.length_pos.mpr hne
  have hbl : ∀ b ∈ binary_to_blocks (text_to_binary pt), b.length = 12 :=
    binary_to_blocks_mem_length _
  have hcount : (binary_to_blocks (text_to_binary pt)).length = (8 * pt.length + 11) / 12 := by
    rw [binary_to_blocks_count, hbsl]
  have hmem : ∀ b ∈ (binary_to_blocks (text_to_binary pt)).map
      (fun b => matrix_to_block (encrypt_block (block_to_matrix b) (keyBits key))),
      b.length = 12 := by
    intro b hb
    obtain ⟨x, hx, rfl⟩ := List.mem_map.mp hb
    exact matrix_to_block_length _ (encrypt_block_wf _ _ (block_to_matrix_wf _ (hbl x hx)) hk)
  have hflatlen : (((binary_to_blocks (text_to_binary pt)).map
      (fun b => matrix_to_block (encrypt_block (block_to_matrix b) (keyBits key)))).flatten).length
      = 12 * ((8 * pt.length + 11) / 12) := by
    rw [flatten_length_const _ hmem, List.length_map, hcount]
  have hflatne : (((binary_to_blocks (text_to_binary pt)).map
      (fun b => matrix_to_block (encrypt_block (block_to_matrix b) (keyBits key)))).flatten)
      ≠ [] := by
    intro hcontra
    have := congrArg List.length hcontra
    rw [hflatlen, List.length_nil] at this
    omega
  obtain ⟨ct, hct_eq, hct_len, hct_dig, hct_inv⟩ :=
    binary_to_hex_spec _ hflatne (by rw [hflatlen]; omega)
  have hlist : ((((binary_to_blocks (text_to_binary pt)).map
      (fun b => matrix_to_block (encrypt_block (block_to_matrix b) (keyBits key)))).map
        block_to_matrix).map (fun m => decrypt_block m (keyBits key))).map matrix_to_block
      = binary_to_blocks (text_to_binary pt) := by
    rw [List.map_map, List.map_map, List.map_map]
    trans ((binary_to_blocks (text_to_binary pt)).map id)
    · exact List.map_congr_left
        (fun b hb => block_bits_roundtrip b (keyBits key) (hbl b hb) hk)
    · exact List.map_id _
  refine ⟨ct, ?_, ?_, hct_dig, ?_⟩
  · rw [encrypt_eq pt key hkey, hct_eq]
  · rw [hct_len, hflatlen]
    omega
  · unfold decrypt hex_to_matrices
    rw [if_pos hkey, hct_inv]
    simp only [Option.map_some']
    rw [binary_to_blocks_of_flatten _ hmem]
    congr 1
    unfold matrices_to_text
    rw [hlist, binary_to_blocks_flatten, hbsl]
    rw [text_to_binary_append_decode pt _ hc]
    congr 1
    have h3 : 8 * pt.length % 12 = 0 ∨ 8 * pt.length % 12 = 4 ∨ 8 * pt.length % 12 = 8 := by
      omega
    rcases h3 with h | h | h <;> rw [h] <;> decide

/-! ## Claim theorems -/

/-- Claim C1 (as amended): for every non-empty plaintext of 8-bit
characters (code points < 256) that does not end in a null character,
and every valid 12-bit key, `decrypt (encrypt P K) K` is `P` followed by
zero or more null characters, and stripping the trailing nulls recovers
`P` exactly. -/
theorem c1_round_trip (pt : List Nat) (key : List Char)
    (hne : pt ≠ []) (hc : ∀ c ∈ pt, c < 256) (hlast : pt.getLast? ≠ some 0)
    (hkey : validate_key key = true) :
    ∃ ct n, encrypt pt key = some ct ∧
      decrypt ct key = some (pt ++ List.replicate n 0) ∧
      stripTrailingNulls (pt ++ List.replicate n 0) = pt := by
  obtain ⟨ct, h1, _, _, h4⟩ := encrypt_decrypt_master pt key hkey hne hc
  exact ⟨ct, _, h1, h4, strip_append_nulls pt _ hlast⟩

/-- Claim C1, counterexamples to the unrestricted statement: the
character U+0100 (code point 256) round-trips to the two characters
`'\x80'` and `'\x00'`, so stripping nulls does not recover it; the empty
plaintext makes `encrypt` raise (`int('', 2)`); and a plaintext ending in
a null character is not recovered by stripping. -/
theorem c1_counterexample :
    (encrypt [256] ['0','0','0','0','0','0','0','0','0','0','0','0']).bind
      (fun ct => decrypt ct ['0','0','0','0','0','0','0','0','0','0','0','0'])
        = some [128, 0] ∧
    stripTrailingNulls [128, 0] ≠ [256] ∧
    encrypt [] ['0','0','0','0','0','0','0','0','0','0','0','0'] = none ∧
    (encrypt [0] ['0','0','0','0','0','0','0','0','0','0','0','0']).bind
      (fun ct => decrypt ct ['0','0','0','0','0','0','0','0','0','0','0','0'])
        = some [0, 0] ∧
    stripTrailingNulls [0, 0] ≠ [0] := by decide

/-- Claim C1, witness: the spec's known vector `encrypt "A"` under key
`110011001100`. -/
theorem c1_round_trip_witness :
    validate_key ['1','1','0','0','1','1','0','0','1','1','0','0'] = true ∧
    (∃ ct n, encrypt [65] ['1','1','0','0','1','1','0','0','1','1','0','0'] = some ct ∧
      decrypt ct ['1','1','0','0','1','1','0','0','1','1','0','0']
        = some ([65] ++ List.replicate n 0) ∧
      stripTrailingNulls ([65] ++ List.replicate n 0) = [65]) ∧
    encrypt [65] ['1','1','0','0','1','1','0','0','1','1','0','0'] = some [6, 8, 1] ∧
    decrypt [6, 8, 1] ['1','1','0','0','1','1','0','0','1','1','0','0'] = some [65, 0] :=
  ⟨by decide,
   c1_round_trip [65] ['1','1','0','0','1','1','0','0','1','1','0','0']
     (by decide) (by decide) (by decide) (by decide),
   by decide, by decide⟩

/-- Claim C2: for every state matrix of 3-bit cells and every 12-bit key,
the single-round decrypt pipeline inverts the single-round encrypt
pipeline: `decrypt_block (encrypt_block S K) K = S`. -/
theorem c2_block_round_trip (m : M) (k : List Bool) (hm : wfM m) (hk : k.length = 12) :
    decrypt_block (encrypt_block m k) k = m :=
  decrypt_block_encrypt_block m k hm hk

/-- Claim C2, witness: the state of the known vector "A" under key
`110011001100`. -/
theorem c2_block_round_trip_witness :
    wfM ⟨[false, true, false], [false, false, false], [false, true, false],
      [false, false, false]⟩ ∧
    decrypt_block (encrypt_block ⟨[false, true, false], [false, false, false],
        [false, true, false], [false, false, false]⟩
      [true, true, false, false, true, true, false, false, true, true, false, false])
      [true, true, false, false, true, true, false, false, true, true, false, false]
      = ⟨[false, true, false], [false, false, false], [false, true, false],
        [false, false, false]⟩ :=
  ⟨by decide,
   c2_block_round_trip _ _ (by decide) (by decide)⟩

/-- Claim C3: `validate_key` returns normally exactly on strings of
twelve characters over {'0','1'}, and otherwise raises an error carrying
the offending key. -/
theorem c3_validate_key (key : List Char) :
    (validate_key_err key = Except.ok () ↔
      key.length = 12 ∧ ∀ c ∈ key, c = '0' ∨ c = '1') ∧
    (¬ (key.length = 12 ∧ ∀ c ∈ key, c = '0' ∨ c = '1') →
      validate_key_err key = Except.error key) := by
  have hok : validate_key_err key = Except.ok () ↔ validate_key key = true := by
    unfold validate_key_err
    rcases Bool.eq_false_or_eq_true (validate_key key) with hv | hv <;> rw [hv] <;> simp
  constructor
  · rw [hok, validate_key_iff]
  · intro hbad
    have hv : validate_key key = false := by
      rcases Bool.eq_false_or_eq_true (validate_key key) with hv | hv
      · exact absurd ((validate_key_iff key).mp hv) hbad
      · exact hv
    unfold validate_key_err
    rw [hv]
    simp

/-- Claim C3, witness: a valid key is accepted, and `'a'`-containing and
short keys are rejected with the key in the error. -/
theorem c3_validate_key_witness :
    validate_key_err ['1','1','0','0','1','1','0','0','1','1','0','0'] = Except.ok () ∧
    validate_key_err ['1','0','a','0','1','1','0','0','1','1','0','0']
      = Except.error ['1','0','a','0','1','1','0','0','1','1','0','0'] ∧
    validate_key_err ['1','0','1'] = Except.error ['1','0','1'] :=
  ⟨(c3_validate_key _).1.mpr (by decide),
   (c3_validate_key _).2 (by decide),
   (c3_validate_key _).2 (by decide)⟩

/-- Claim C4 (as amended): with a valid key, `encrypt` accepts every
non-empty plaintext and `decrypt` accepts every non-empty string of hex
digits; the empty plaintext and the empty ciphertext raise `ValueError`
(`int` on the empty string), see the counterexample. -/
theorem c4_total_on_nonempty :
    (∀ (pt : List Nat) (key : List Char), validate_key key = true → pt ≠ [] →
      ∃ ct, encrypt pt key = some ct) ∧
    (∀ (hs : List Nat) (key : List Char), validate_key key = true → hs ≠ [] →
      (∀ d ∈ hs, d < 16) → ∃ p, decrypt hs key = some p) :=
  ⟨fun pt key hk hne => encrypt_some pt key hk hne,
   fun hs key hk hne hd => decrypt_some hs key hk hne hd⟩

/-- Claim C4, counterexample to the unrestricted statement: under a valid
key, both the empty plaintext and the empty ciphertext raise. -/
theorem c4_counterexample :
    validate_key ['1','1','0','0','1','1','0','0','1','1','0','0'] = true ∧
    encrypt [] ['1','1','0','0','1','1','0','0','1','1','0','0'] = none ∧
    decrypt [] ['1','1','0','0','1','1','0','0','1','1','0','0'] = none := by decide

/-- Claim C4, witness: concrete accepted inputs. -/
theorem c4_total_on_nonempty_witness :
    (∃ ct, encrypt [65] ['1','1','0','0','1','1','0','0','1','1','0','0'] = some ct) ∧
    (∃ p, decrypt [6, 8, 1] ['1','1','0','0','1','1','0','0','1','1','0','0'] = some p) :=
  ⟨c4_total_on_nonempty.1 [65] ['1','1','0','0','1','1','0','0','1','1','0','0']
     (by decide) (by decide),
   c4_total_on_nonempty.2 [6, 8, 1] ['1','1','0','0','1','1','0','0','1','1','0','0']
     (by decide) (by decide) (by decide)⟩

/-- Claim C5: MixColumns in the decrypt direction inverts MixColumns in
the encrypt direction on every state of 3-bit cells (the decrypt
coefficient matrix is the GF(2^3) inverse of the encrypt one). -/
theorem c5_mix_columns_round_trip (m : M) (h : wfM m) :
    mix_columns (mix_columns m false) true = m :=
  mix_columns_inv_mix_columns m h

/-- Claim C5, witness. -/
theorem c5_mix_columns_round_trip_witness :
    wfM ⟨[true, false, true], [false, false, false], [false, false, false],
      [true, false, true]⟩ ∧
    mix_columns (mix_columns ⟨[true, false, true], [false, false, false],
      [false, false, false], [true, false, true]⟩ false) true
      = ⟨[true, false, true], [false, false, false], [false, false, false],
        [true, false, true]⟩ :=
  ⟨by decide, c5_mix_columns_round_trip _ (by decide)⟩

/-- Claim C6: AddRoundKey is self-inverse on every state of 3-bit cells
for every 12-bit key. -/
theorem c6_add_round_key_involution (m : M) (k : List Bool)
    (hm : wfM m) (hk : k.length = 12) :
    add_round_key (add_round_key m k) k = m :=
  add_round_key_add_round_key m k hm hk

/-- Claim C6, witness. -/
theorem c6_add_round_key_involution_witness :
    wfM ⟨[true, false, true], [false, false, true], [false, true, false],
      [true, false, true]⟩ ∧
    add_round_key (add_round_key ⟨[true, false, true], [false, false, true],
        [false, true, false], [true, false, true]⟩
      [true, true, false, false, true, true, false, false, true, true, false, false])
      [true, true, false, false, true, true, false, false, true, true, false, false]
      = ⟨[true, false, true], [false, false, true], [false, true, false],
        [true, false, true]⟩ :=
  ⟨by decide, c6_add_round_key_involution _ _ (by decide) (by decide)⟩

/-- Claim C7: the forward S-Box is a bijection on the eight 3-bit field
elements with exactly the mapping 0→0, 1→1, 2→5, 3→6, 4→7, 5→2, 6→3,
7→4, and the inverse S-Box is its exact functional inverse on all of
them. -/
theorem c7_sbox_bijection :
    Function.Bijective sboxN ∧
    (∀ v : Fin 8, (sboxN v).val = [0, 1, 5, 6, 7, 2, 3, 4].getD v.val 0) ∧
    (∀ v : Fin 8, binToNat (boxLookup S_BOX (toBitsFixed 3 v.val)) = (sboxN v).val) ∧
    (∀ v : Fin 8, boxLookup INVERSE_S_BOX (boxLookup S_BOX (toBitsFixed 3 v.val))
      = toBitsFixed 3 v.val) := by decide

/-- Claim C8: `gf_multiply_by_2` computes multiplication by the field
generator x in GF(2^3) modulo x³+x+1 on every 3-bit value, and its result
is again a 3-bit value. -/
theorem c8_gf_multiply_by_2 :
    ∀ a : Fin 8, gf_multiply_by_2 (toBitsFixed 3 a.val) = toBitsFixed 3 (specMulX a.val) ∧
      specMulX a.val < 8 ∧ (gf_multiply_by_2 (toBitsFixed 3 a.val)).length = 3 := by decide

/-- Claim C9 (as amended): for every non-empty plaintext of 8-bit
characters and every valid key, the ciphertext is a string of hex digits
of length exactly `3 · ceil(8·len/12)`. -/
theorem c9_ciphertext_length (pt : List Nat) (key : List Char)
    (hkey : validate_key key = true) (hne : pt ≠ []) (hc : ∀ c ∈ pt, c < 256) :
    ∃ ct, encrypt pt key = some ct ∧
      ct.length = 3 * ((8 * pt.length + 11) / 12) ∧ ∀ d ∈ ct, d < 16 := by
  obtain ⟨ct, h1, h2, h3, _⟩ := encrypt_decrypt_master pt key hkey hne hc
  exact ⟨ct, h1, h2, h3⟩

/-- Claim C9, counterexample to the unrestricted statement: the single
character U+1000 (code point 4096) yields 13 bits, hence two blocks and
six hex digits, not `3 · ceil(8·1/12) = 3`. -/
theorem c9_counterexample :
    encrypt [4096] ['0','0','0','0','0','0','0','0','0','0','0','0']
      = some [15, 4, 0, 0, 0, 0] ∧
    ([15, 4, 0, 0, 0, 0] : List Nat).length
      ≠ 3 * ((8 * ([4096] : List Nat).length + 11) / 12) := by decide

/-- Claim C9, witness: "abc" (three 8-bit characters, 24 bits, two
blocks, six hex digits). -/
theorem c9_ciphertext_length_witness :
    validate_key ['0','1','0','1','0','0','1','1','1','1','0','0'] = true ∧
    (∃ ct, encrypt [97, 98, 99] ['0','1','0','1','0','0','1','1','1','1','0','0'] = some ct ∧
      ct.length = 3 * ((8 * ([97, 98, 99] : List Nat).length + 11) / 12) ∧
      ∀ d ∈ ct, d < 16) ∧
    encrypt [97, 98, 99] ['0','1','0','1','0','0','1','1','1','1','0','0']
      = some [8, 14, 15, 3, 14, 4] :=
  ⟨by decide,
   c9_ciphertext_length [97, 98, 99] ['0','1','0','1','0','0','1','1','1','1','0','0']
     (by decide) (by decide) (by decide),
   by decide⟩

/-- Claim C10 (implicit): the forward S-Box is an involution, so the
programmatically inverted table agrees with the forward table as a
mapping on all eight 3-bit values. -/
theorem c10_sbox_involution :
    ∀ v : Fin 8,
      boxLookup S_BOX (boxLookup S_BOX (toBitsFixed 3 v.val)) = toBitsFixed 3 v.val ∧
      boxLookup INVERSE_S_BOX (toBitsFixed 3 v.val)
        = boxLookup S_BOX (toBitsFixed 3 v.val) := by decide
